import Mathlib

/-!
# Verification of the `spelf` interactive fuzzy finder

Shallow embedding of `src/main.rs`: a terminal fuzzy finder that loads a
dictionary, ranks all candidates by Levenshtein distance to the current
query on every cycle, and lets the user navigate and confirm a selection.

Strings are modelled as `List Char`, machine `usize` as `Nat` (Rust's
`saturating_sub(1)` coincides with truncated `Nat` subtraction).
-/

namespace Spelf

/-- Strings of the program are modelled as lists of characters. -/
abbrev Str := List Char

/-! ## Distance function

The binary `strsim::levenshtein` used at `main.rs` is an external crate
dependency whose body is not part of this repository.

Modelled from the spec: the Distance Function is "the classic edit
distance: minimum number of single-character insertions, deletions,
substitutions to transform one string into the other".  We realise the
classic recurrence structurally (recursion on the first string, with an
inner structural recursion on the second), so that it evaluates by kernel
reduction; `levenshtein_cons_cons` below shows it satisfies the textbook
recurrence definitionally. -/

/-- One row step of the edit-distance recurrence: given `f = levenshtein s`,
computes `levenshtein (a :: s)` by structural recursion on the second string. -/
def levAux (f : Str → Nat) (a : Char) : Str → Nat
  | [] => f [] + 1
  | b :: t =>
    if a = b then f t
    else 1 + min (min (f (b :: t)) (levAux f a t)) (f t)

/-- Classic Levenshtein edit distance (see module note: modelled from the spec,
the implementation lives in the external `strsim` crate). -/
def levenshtein : Str → Str → Nat
  | [] => fun t => t.length
  | a :: s => levAux (levenshtein s) a

theorem levenshtein_nil_left (t : Str) : levenshtein [] t = t.length := rfl

/-- The classic edit-distance recurrence holds definitionally:
match consumes both heads for free, mismatch is 1 plus the best of
deletion, insertion and substitution. -/
theorem levenshtein_cons_cons (a b : Char) (s t : Str) :
    levenshtein (a :: s) (b :: t) =
      if a = b then levenshtein s t
      else 1 + min (min (levenshtein s (b :: t)) (levenshtein (a :: s) t))
                   (levenshtein s t) := rfl

theorem levenshtein_nil_right : ∀ s : Str, levenshtein s [] = s.length
  | [] => rfl
  | a :: s => by
    show levAux (levenshtein s) a [] = s.length + 1
    rw [levAux, levenshtein_nil_right s]

theorem levenshtein_self : ∀ s : Str, levenshtein s s = 0
  | [] => rfl
  | a :: s => by
    show levAux (levenshtein s) a (a :: s) = 0
    rw [levAux, if_pos rfl, levenshtein_self s]

/-! ## Ranking engine

`main.rs` (loop body):
```text
let mut matches = dict.iter()
    .map(|w| (w, levenshtein(&query, w)))
    .collect::<Vec<_>>();
matches.sort_by_key(|(_, d)| *d);
let filtered_matches: Vec<String> = matches.iter().map(|(w, _)| (*w).clone()).collect();
```
Rust's `sort_by_key` is a stable ascending sort by the key; we model it
with `List.insertionSort` on the `(word, distance)` pairs, ordered by the
second component — `insertionSort` is a stable ascending sort, and a stable
sort's output is uniquely determined by the input and the key. -/

/-- The `(candidate, distance)` pairs after the stable `sort_by_key`. -/
def rankPairs (q : Str) (dict : List Str) : List (Str × Nat) :=
  (dict.map (fun w => (w, levenshtein q w))).insertionSort
    (fun a b => a.2 ≤ b.2)

/-- The ranked list (`filtered_matches` in the source): candidates sorted
stably by ascending Levenshtein distance to the query. -/
def rank (q : Str) (dict : List Str) : List Str :=
  (rankPairs q dict).map Prod.fst

/-! ## Candidate source

`load_dictionary` in `main.rs`:
```text
fs::read_to_string("/usr/share/dict/words")
    .map(|content| content.lines().map(String::from).collect())
```
`str::lines` splits at `'\n'`, does not report a final empty segment after
a trailing newline, and strips one trailing `'\r'` from each reported line. -/

/-- Split a character list at every `'\n'`; always returns at least one
(possibly empty) segment, like `str::split('\n')`: a `'\n'` starts a new
empty segment, any other character is prepended to the first segment of
the split of the rest. -/
def splitOnNl : Str → List Str
  | [] => [[]]
  | c :: rest =>
    if c = '\n' then [] :: splitOnNl rest
    else (c :: (splitOnNl rest).headI) :: (splitOnNl rest).tail

/-- Strip a single trailing carriage return, as `str::lines` does per line. -/
def stripTrailingCr (l : Str) : Str :=
  if l.getLast? = some '\r' then l.dropLast else l

/-- Semantics of Rust's `str::lines`: split at `'\n'`, drop the final
segment when it is empty (the final line ending is optional), strip one
trailing `'\r'` from each line. -/
def rustLines (content : Str) : List Str :=
  let segs := splitOnNl content
  let kept := if segs.getLast? = some [] then segs.dropLast else segs
  kept.map stripTrailingCr

/-- `load_dictionary`, applied to the text read from the dictionary file
(the successful branch; an unreadable file aborts the process instead). -/
def loadDictionary (content : Str) : List Str :=
  rustLines content

/-- The candidate set the spec describes: only the non-empty lines of the
dictionary file. Stated from the spec's words, for comparison with
`loadDictionary`. -/
def specNonEmptyLines (content : Str) : List Str :=
  (rustLines content).filter (fun l => !l.isEmpty)

/-! ## Input interpreter and session loop -/

/-- Key codes the handler distinguishes (`crossterm::event::KeyCode`);
`otherKey` stands for every other key. -/
inductive KeyCode where
  | esc
  | up
  | down
  | enter
  | backspace
  | char (c : Char)
  | otherKey
deriving DecidableEq, Repr

/-- One polled terminal event: a key press (with whether CONTROL is held),
a resize, some other event, or a poll timeout with no event. -/
inductive Event where
  | key (code : KeyCode) (ctrl : Bool)
  | resize
  | otherEvent
  | noEvent
deriving DecidableEq, Repr

/-- The mutable state threaded through the session loop: the query buffer,
the selected index, and the running flag shared with the signal handler. -/
structure LoopState where
  query : Str
  selectedIndex : Nat
  running : Bool
deriving DecidableEq, Repr

/-- What one call of `handle_input` reports back to `main`: keep looping,
a confirmed selection (`Ok(Some(..))`), or an out-of-bounds index panic
in `filtered_matches[*selected_index]`. -/
inductive StepResult where
  | cont
  | confirmed (w : Str)
  | panicked
deriving DecidableEq, Repr

/-- `handle_input` from `main.rs`, for the case where an event was polled
(`Ok(None)` on timeout is `Event.noEvent` here).  Match arms are in source
order; the guards on `Char` arms fall through to the catch-all `Char`
arm exactly as in the source. -/
def handleInput (ev : Event) (filtered : List Str) (st : LoopState) :
    LoopState × StepResult :=
  match ev with
  | .key code ctrl =>
    match code with
    | .esc => ({ st with running := false }, .cont)
    | .up =>
      (if st.selectedIndex > 0 then
        { st with selectedIndex := st.selectedIndex - 1 }
       else st, .cont)
    | .down =>
      (if st.selectedIndex < filtered.length - 1 then
        { st with selectedIndex := st.selectedIndex + 1 }
       else st, .cont)
    | .enter =>
      if filtered.isEmpty then (st, .cont)
      else
        match filtered[st.selectedIndex]? with
        | some w => (st, .confirmed w)
        | none => (st, .panicked)
    | .char c =>
      if (c = 'c' ∨ c = 'd' ∨ c = 'z') ∧ ctrl = true then
        ({ st with running := false }, .cont)
      else if c = 'p' ∧ ctrl = true then
        (if st.selectedIndex > 0 then
          { st with selectedIndex := st.selectedIndex - 1 }
         else st, .cont)
      else if c = 'n' ∧ ctrl = true then
        (if st.selectedIndex < filtered.length - 1 then
          { st with selectedIndex := st.selectedIndex + 1 }
         else st, .cont)
      else
        ({ st with query := st.query ++ [c],
                   selectedIndex := min st.selectedIndex (filtered.length - 1) },
         .cont)
    | .backspace =>
      ({ st with query := st.query.dropLast,
                 selectedIndex := min st.selectedIndex (filtered.length - 1) },
       .cont)
    | .otherKey => (st, .cont)
  | .resize => (st, .cont)
  | .otherEvent => (st, .cont)
  | .noEvent => (st, .cont)

/-- One iteration of the `loop` in `main`: recompute the ranked list from
the current query and run `handle_input` on the polled event. -/
def cycle (dict : List Str) (st : LoopState) (ev : Event) :
    LoopState × StepResult :=
  handleInput ev (rank st.query dict) st

/-- The state after one cycle (rendering does not mutate state). -/
def stepState (dict : List Str) (st : LoopState) (ev : Event) : LoopState :=
  (cycle dict st ev).1

/-- State at loop entry: empty query, selected index `0`, running flag set. -/
def initState : LoopState :=
  { query := [], selectedIndex := 0, running := true }

/-- How a run of the session loop ends: cancelled (running flag cleared,
no output), confirmed with a selection, panicked, or the modelled event
stream ran out while the loop was still running. -/
inductive RunOutcome where
  | cancelled
  | confirmed (w : Str)
  | panicked
  | pending (st : LoopState)
deriving DecidableEq, Repr

/-- The `loop` in `main`, driven by a finite stream of polled events:
each iteration first checks the running flag, then performs one cycle;
a confirmed selection returns from `main` immediately. -/
def runLoop (dict : List Str) (st : LoopState) : List Event → RunOutcome
  | [] => if st.running then .pending st else .cancelled
  | ev :: evs =>
    if st.running then
      match cycle dict st ev with
      | (st', .cont) => runLoop dict st' evs
      | (_, .confirmed w) => .confirmed w
      | (_, .panicked) => .panicked
    else .cancelled

/-- Everything the program writes to standard output after the loop:
`println!("{}", selected_word)` on the confirmed path, nothing otherwise. -/
def progOutput : RunOutcome → Str
  | .confirmed w => w ++ ['\n']
  | _ => []

/-- Process exit status: `Ok(())` (status 0) on both the confirmed and the
cancelled path, Rust's panic abort status on a panic, none while pending. -/
def exitCode : RunOutcome → Option Nat
  | .confirmed _ => some 0
  | .cancelled => some 0
  | .panicked => some 101
  | .pending _ => none

/-- The selection-state invariant: the selected index never exceeds
`max 0 (length - 1)` of the (length-preserving) ranked list, i.e. of the
dictionary. -/
def IdxInv (dict : List Str) (st : LoopState) : Prop :=
  st.selectedIndex ≤ dict.length - 1

/-! ## Ranking engine: permutation, sortedness, stability -/

theorem rankPairs_perm (q : Str) (dict : List Str) :
    (rankPairs q dict).Perm (dict.map (fun w => (w, levenshtein q w))) :=
  List.perm_insertionSort _ _

theorem map_fst_pairs (q : Str) (dict : List Str) :
    (dict.map (fun w => (w, levenshtein q w))).map Prod.fst = dict := by
  rw [List.map_map]
  exact List.map_id'' (fun _ => rfl) dict

theorem rank_perm (q : Str) (dict : List Str) : (rank q dict).Perm dict := by
  have h := (rankPairs_perm q dict).map Prod.fst
  rwa [map_fst_pairs] at h

theorem rank_length (q : Str) (dict : List Str) :
    (rank q dict).length = dict.length :=
  (rank_perm q dict).length_eq

theorem rankPairs_snd (q : Str) (dict : List Str) :
    ∀ x ∈ rankPairs q dict, x.2 = levenshtein q x.1 := by
  intro x hx
  have hx' : x ∈ dict.map (fun w => (w, levenshtein q w)) :=
    (rankPairs_perm q dict).mem_iff.mp hx
  obtain ⟨w, -, rfl⟩ := List.mem_map.mp hx'
  rfl

theorem rankPairs_sorted (q : Str) (dict : List Str) :
    (rankPairs q dict).Sorted (fun a b => a.2 ≤ b.2) := by
  haveI : IsTotal (Str × Nat) (fun a b => a.2 ≤ b.2) :=
    ⟨fun a b => Nat.le_total a.2 b.2⟩
  haveI : IsTrans (Str × Nat) (fun a b => a.2 ≤ b.2) :=
    ⟨fun _ _ _ => Nat.le_trans⟩
  exact List.sorted_insertionSort _ _

theorem rank_sorted (q : Str) (dict : List Str) :
    (rank q dict).Sorted (fun a b => levenshtein q a ≤ levenshtein q b) := by
  show List.Pairwise _ ((rankPairs q dict).map Prod.fst)
  rw [List.pairwise_map]
  refine (rankPairs_sorted q dict).imp_of_mem ?_
  intro a b ha hb hab
  rw [rankPairs_snd q dict a ha, rankPairs_snd q dict b hb] at hab
  exact hab

theorem rankPairs_filter (q : Str) (dict : List Str) (d : Nat) :
    (rankPairs q dict).filter (fun x => x.2 == d) =
      (dict.map (fun w => (w, levenshtein q w))).filter (fun x => x.2 == d) := by
  have hpw : ((dict.map (fun w => (w, levenshtein q w))).filter
      (fun x => x.2 == d)).Pairwise (fun a b : Str × Nat => a.2 ≤ b.2) := by
    refine List.pairwise_of_forall_mem_list ?_
    intro a ha b hb
    have ha' := List.of_mem_filter ha
    have hb' := List.of_mem_filter hb
    simp only [beq_iff_eq] at ha' hb'
    omega
  have hsub : List.Sublist
      ((dict.map (fun w => (w, levenshtein q w))).filter (fun x => x.2 == d))
      (rankPairs q dict) :=
    List.sublist_insertionSort hpw (List.filter_sublist _)
  have hsub2 : List.Sublist
      ((dict.map (fun w => (w, levenshtein q w))).filter (fun x => x.2 == d))
      ((rankPairs q dict).filter (fun x => x.2 == d)) := by
    have heq : ((dict.map (fun w => (w, levenshtein q w))).filter
          (fun x => x.2 == d)).filter (fun x => x.2 == d) =
        (dict.map (fun w => (w, levenshtein q w))).filter (fun x => x.2 == d) := by
      rw [List.filter_eq_self]
      intro a ha
      exact (List.mem_filter.mp ha).2
    have h := hsub.filter (fun x => x.2 == d)
    rwa [heq] at h
  have hlen : ((rankPairs q dict).filter (fun x => x.2 == d)).length =
      ((dict.map (fun w => (w, levenshtein q w))).filter (fun x => x.2 == d)).length :=
    ((rankPairs_perm q dict).filter _).length_eq
  exact (hsub2.eq_of_length hlen.symm).symm

theorem rank_filter (q : Str) (dict : List Str) (d : Nat) :
    (rank q dict).filter (fun w => levenshtein q w == d) =
      dict.filter (fun w => levenshtein q w == d) := by
  have h1 : (rank q dict).filter (fun w => levenshtein q w == d) =
      ((rankPairs q dict).filter
        ((fun w => levenshtein q w == d) ∘ Prod.fst)).map Prod.fst := by
    rw [rank, List.filter_map]
  have h2 : (rankPairs q dict).filter ((fun w => levenshtein q w == d) ∘ Prod.fst) =
      (rankPairs q dict).filter (fun x => x.2 == d) := by
    refine List.filter_congr ?_
    intro x hx
    simp only [Function.comp_apply]
    rw [rankPairs_snd q dict x hx]
  have h3 : (dict.map (fun w => (w, levenshtein q w))).filter (fun x => x.2 == d) =
      (dict.map (fun w => (w, levenshtein q w))).filter
        ((fun w => levenshtein q w == d) ∘ Prod.fst) := by
    refine List.filter_congr ?_
    intro x hx
    obtain ⟨w, -, rfl⟩ := List.mem_map.mp hx
    rfl
  have h4 : ((dict.map (fun w => (w, levenshtein q w))).filter
        ((fun w => levenshtein q w == d) ∘ Prod.fst)).map Prod.fst =
      dict.filter (fun w => levenshtein q w == d) := by
    rw [List.filter_map, List.map_map]
    refine Eq.trans (List.map_id'' (fun _ => rfl) _) ?_
    exact List.filter_congr (fun w _ => rfl)
  rw [h1, h2, rankPairs_filter, h3, h4]

/-! ## Session loop: invariant preservation and termination behaviour -/

theorem handleInput_idx (ev : Event) (filtered : List Str) (st : LoopState)
    (h : st.selectedIndex ≤ filtered.length - 1) :
    (handleInput ev filtered st).1.selectedIndex ≤ filtered.length - 1 := by
  rcases ev with ⟨code, ctrl⟩ | - | - | -
  · cases code
    case esc => exact h
    case up =>
      simp only [handleInput]
      split
      · exact Nat.le_trans (Nat.sub_le _ _) h
      · exact h
    case down =>
      simp only [handleInput]
      split
      · rename_i hlt
        show st.selectedIndex + 1 ≤ filtered.length - 1
        omega
      · exact h
    case enter =>
      simp only [handleInput]
      split
      · exact h
      · split <;> exact h
    case char c =>
      simp only [handleInput]
      split
      · exact h
      · split
        · split
          · exact Nat.le_trans (Nat.sub_le _ _) h
          · exact h
        · split
          · split
            · rename_i hlt
              show st.selectedIndex + 1 ≤ filtered.length - 1
              omega
            · exact h
          · show min st.selectedIndex (filtered.length - 1) ≤ filtered.length - 1
            exact Nat.min_le_right _ _
    case backspace =>
      show min st.selectedIndex (filtered.length - 1) ≤ filtered.length - 1
      exact Nat.min_le_right _ _
    case otherKey => exact h
  all_goals exact h

theorem cycle_inv (dict : List Str) (st : LoopState) (ev : Event)
    (h : IdxInv dict st) : IdxInv dict (stepState dict st ev) := by
  have hlen := rank_length st.query dict
  have h' : st.selectedIndex ≤ (rank st.query dict).length - 1 := by
    rw [hlen]; exact h
  have := handleInput_idx ev (rank st.query dict) st h'
  unfold IdxInv stepState cycle
  rw [← hlen]
  exact this

theorem foldl_inv (dict : List Str) :
    ∀ (evs : List Event) (st : LoopState), IdxInv dict st →
      IdxInv dict (List.foldl (stepState dict) st evs)
  | [], _, h => h
  | ev :: evs, st, h => foldl_inv dict evs _ (cycle_inv dict st ev h)

theorem initState_inv (dict : List Str) : IdxInv dict initState := by
  simp [IdxInv, initState]

theorem cycle_no_panic (dict : List Str) (st : LoopState) (ev : Event)
    (h : IdxInv dict st) : (cycle dict st ev).2 ≠ StepResult.panicked := by
  unfold cycle
  rcases ev with ⟨code, ctrl⟩ | - | - | -
  · cases code
    case enter =>
      simp only [handleInput]
      split
      · simp
      · rename_i hne
        have hlen := rank_length st.query dict
        have hpos : 0 < (rank st.query dict).length := by
          refine List.length_pos.mpr ?_
          intro hnil
          rw [hnil] at hne
          simp at hne
        have hlt : st.selectedIndex < (rank st.query dict).length := by
          unfold IdxInv at h
          omega
        rw [List.getElem?_eq_getElem hlt]
        simp
    case char c =>
      simp only [handleInput]
      repeat' split
      all_goals simp
    all_goals simp [handleInput]
  all_goals simp [handleInput]

theorem runLoop_not_running (dict : List Str) (st : LoopState)
    (h : st.running = false) :
    ∀ evs : List Event, runLoop dict st evs = RunOutcome.cancelled
  | [] => by simp [runLoop, h]
  | ev :: evs => by simp [runLoop, h]

theorem runLoop_no_panic (dict : List Str) :
    ∀ (evs : List Event) (st : LoopState), IdxInv dict st →
      runLoop dict st evs ≠ RunOutcome.panicked
  | [], st, _ => by
    simp only [runLoop]
    split <;> simp
  | ev :: evs, st, h => by
    simp only [runLoop]
    split
    · rcases hc : cycle dict st ev with ⟨st', r⟩
      have hinv' : IdxInv dict st' := by
        have := cycle_inv dict st ev h
        rwa [stepState, hc] at this
      have hnp := cycle_no_panic dict st ev h
      rw [hc] at hnp
      cases r
      · exact runLoop_no_panic dict evs st' hinv'
      · simp
      · exact absurd rfl hnp
    · simp

theorem runLoop_cons_cont (dict : List Str) (st st' : LoopState) (ev : Event)
    (evs : List Event) (hrun : st.running = true)
    (hc : cycle dict st ev = (st', StepResult.cont)) :
    runLoop dict st (ev :: evs) = runLoop dict st' evs := by
  simp [runLoop, hrun, hc]

theorem runLoop_cons_confirmed (dict : List Str) (st : LoopState) (ev : Event)
    (evs : List Event) (w : Str) (hrun : st.running = true)
    (hc : cycle dict st ev = (st, StepResult.confirmed w)) :
    runLoop dict st (ev :: evs) = RunOutcome.confirmed w := by
  simp [runLoop, hrun, hc]

theorem cycle_enter_nonempty (dict : List Str) (st : LoopState)
    (hlt : st.selectedIndex < (rank st.query dict).length) :
    cycle dict st (Event.key KeyCode.enter false) =
      (st, StepResult.confirmed
        ((rank st.query dict).get ⟨st.selectedIndex, hlt⟩)) := by
  have hemp : (rank st.query dict).isEmpty = false := by
    rcases hq : rank st.query dict with - | ⟨w, ws⟩
    · rw [hq] at hlt
      simp at hlt
    · rfl
  unfold cycle
  simp only [handleInput, hemp, Bool.false_eq_true, if_false]
  rw [List.getElem?_eq_getElem hlt]
  rfl

/-! ## Lines helpers for the candidate source -/

/-- A dictionary file containing exactly the lines `ls`, each terminated by
a newline. -/
def joinLines (ls : List Str) : Str :=
  ls.foldr (fun l acc => l ++ '\n' :: acc) []

theorem splitOnNl_ne_nil : ∀ s : Str, splitOnNl s ≠ []
  | [] => by simp [splitOnNl]
  | c :: rest => by
    simp only [splitOnNl]
    split <;> simp

theorem splitOnNl_append_newline (l rest : Str) (hl : '\n' ∉ l) :
    splitOnNl (l ++ '\n' :: rest) = l :: splitOnNl rest := by
  induction l with
  | nil => simp [splitOnNl]
  | cons c l ih =>
    have hc : ¬(c = '\n') := by
      intro hc
      subst hc
      exact hl (List.mem_cons_self _ _)
    have hl' : '\n' ∉ l := fun hm => hl (List.mem_cons_of_mem _ hm)
    rw [List.cons_append, splitOnNl, if_neg hc, ih hl']
    simp

theorem splitOnNl_joinLines (ls : List Str) (h : ∀ l ∈ ls, '\n' ∉ l) :
    splitOnNl (joinLines ls) = ls ++ [[]] := by
  induction ls with
  | nil => rfl
  | cons l ls ih =>
    have hstep : joinLines (l :: ls) = l ++ '\n' :: joinLines ls := rfl
    rw [hstep, splitOnNl_append_newline _ _ (h l (List.mem_cons_self _ _)),
        ih (fun x hx => h x (List.mem_cons_of_mem _ hx))]
    rfl

/-! ## The claims -/

/-- Claim C1: for every query `q` and candidate list `C`, the ranked list
produced each cycle is exactly the stable ascending sort of `C` by edit
distance to `q`: it is a permutation of `C` (no candidate dropped or
duplicated), the distances are non-decreasing along it, and the candidates
at any given distance appear in the same relative order as in `C`. -/
theorem claim_C1_rank_is_stable_sort (q : Str) (C : List Str) :
    (rank q C).Perm C ∧
    (rank q C).Sorted (fun a b => levenshtein q a ≤ levenshtein q b) ∧
    ∀ d : Nat, (rank q C).filter (fun w => levenshtein q w == d) =
      C.filter (fun w => levenshtein q w == d) :=
  ⟨rank_perm q C, rank_sorted q C, fun d => rank_filter q C d⟩

/-- Claim C2: from a running state satisfying the selection invariant,
pressing Enter on a non-empty ranked list ends the loop confirmed with the
candidate at the Selected Index, the program's whole standard output is
that candidate followed by exactly one newline, and the exit status is
success; pressing Enter on an empty ranked list leaves the state unchanged,
does not end the loop, and emits nothing. -/
theorem claim_C2_enter_confirms (dict : List Str) (st : LoopState)
    (evs : List Event) (hrun : st.running = true) (hinv : IdxInv dict st) :
    (rank st.query dict ≠ [] →
      ∃ w, (rank st.query dict)[st.selectedIndex]? = some w ∧
        runLoop dict st (Event.key KeyCode.enter false :: evs) =
          RunOutcome.confirmed w ∧
        progOutput (runLoop dict st (Event.key KeyCode.enter false :: evs)) =
          w ++ ['\n'] ∧
        exitCode (runLoop dict st (Event.key KeyCode.enter false :: evs)) =
          some 0) ∧
    (rank st.query dict = [] →
      cycle dict st (Event.key KeyCode.enter false) = (st, StepResult.cont) ∧
      runLoop dict st (Event.key KeyCode.enter false :: evs) =
        runLoop dict st evs) := by
  constructor
  · intro hne
    have hlen := rank_length st.query dict
    have hpos : 0 < (rank st.query dict).length := List.length_pos.mpr hne
    have hlt : st.selectedIndex < (rank st.query dict).length := by
      unfold IdxInv at hinv
      omega
    have hcycle := cycle_enter_nonempty dict st hlt
    have hrunl : runLoop dict st (Event.key KeyCode.enter false :: evs) =
        RunOutcome.confirmed ((rank st.query dict).get ⟨st.selectedIndex, hlt⟩) :=
      runLoop_cons_confirmed _ _ _ _ _ hrun hcycle
    refine ⟨(rank st.query dict).get ⟨st.selectedIndex, hlt⟩, ?_, hrunl, ?_, ?_⟩
    · rw [List.getElem?_eq_getElem hlt]
      rfl
    · rw [hrunl]
      rfl
    · rw [hrunl]
      rfl
  · intro hnil
    have hcycle : cycle dict st (Event.key KeyCode.enter false) =
        (st, StepResult.cont) := by
      unfold cycle
      rw [hnil]
      rfl
    exact ⟨hcycle, runLoop_cons_cont _ _ _ _ _ hrun hcycle⟩

/-- Claim C2, witnessed: with dictionary `["hi"]` from the initial state,
Enter confirms `"hi"`; with the empty dictionary, Enter continues the loop. -/
theorem claim_C2_enter_confirms_witness :
    runLoop [['h', 'i']] initState [Event.key KeyCode.enter false] =
      RunOutcome.confirmed ['h', 'i'] ∧
    runLoop [] initState [Event.key KeyCode.enter false] =
      runLoop [] initState [] := by
  have h1 := (claim_C2_enter_confirms [['h', 'i']] initState [] rfl
    (initState_inv [['h', 'i']])).1 (by decide)
  have h2 := (claim_C2_enter_confirms [] initState [] rfl
    (initState_inv [])).2 (by decide)
  obtain ⟨w, hw, hrun, -, -⟩ := h1
  have hv : (rank initState.query [['h', 'i']])[initState.selectedIndex]? =
      some ['h', 'i'] := by decide
  rw [hv] at hw
  rw [(Option.some.inj hw).symm] at hrun
  exact ⟨hrun, h2.2⟩

/-- Claim C3 counterexample: with candidates `["bb", "a"]` the empty query
ranks `"a"` (distance 1) before `"bb"` (distance 2), so the ranked list is
not the unmodified load order. -/
theorem claim_C3_counterexample :
    rank [] [['b', 'b'], ['a']] = [['a'], ['b', 'b']] ∧
    rank [] [['b', 'b'], ['a']] ≠ [['b', 'b'], ['a']] := by
  constructor <;> decide

/-- Claim C3 as amended: ranking with the empty query yields the stable
ascending sort of the candidate list by candidate length (the distance of a
candidate to the empty query is its length), which equals the load order
only when the lengths are already non-decreasing. -/
theorem claim_C3_empty_query_sorts_by_length (C : List Str) :
    (rank [] C).Perm C ∧
    (rank [] C).Sorted (fun a b => a.length ≤ b.length) ∧
    ∀ n : Nat, (rank [] C).filter (fun w => w.length == n) =
      C.filter (fun w => w.length == n) := by
  refine ⟨rank_perm [] C, ?_, ?_⟩
  · refine List.Pairwise.imp ?_ (rank_sorted [] C)
    intro a b hab
    rwa [levenshtein_nil_left, levenshtein_nil_left] at hab
  · intro n
    have h := rank_filter [] C n
    have e1 : (fun w : Str => levenshtein [] w == n) =
        (fun w : Str => w.length == n) := by
      funext w
      rw [levenshtein_nil_left]
    rwa [e1] at h

/-- Claim C4 counterexample: the file content `"a\n\nb"` loads as three
candidates `["a", "", "b"]` — the empty middle line does contribute a
candidate, so the loaded set is not the non-empty lines only. -/
theorem claim_C4_counterexample :
    loadDictionary ['a', '\n', '\n', 'b'] = [['a'], [], ['b']] ∧
    loadDictionary ['a', '\n', '\n', 'b'] ≠
      specNonEmptyLines ['a', '\n', '\n', 'b'] := by
  constructor <;> decide

/-- Claim C4 as amended: the candidate set loaded at startup consists of
exactly the lines of the dictionary file, in file order, with empty lines
included as empty candidates: for any list of newline-terminated lines
(none containing a newline or ending in a carriage return), loading the
joined file returns exactly those lines. -/
theorem claim_C4_all_lines_loaded (ls : List Str)
    (h : ∀ l ∈ ls, '\n' ∉ l ∧ l.getLast? ≠ some '\r') :
    loadDictionary (joinLines ls) = ls := by
  simp only [loadDictionary, rustLines]
  rw [splitOnNl_joinLines ls (fun l hl => (h l hl).1), List.getLast?_concat,
      if_pos rfl, List.dropLast_concat]
  refine Eq.trans (List.map_congr_left ?_) (List.map_id' ls)
  intro l hl
  unfold stripTrailingCr
  rw [if_neg (h l hl).2]

/-- Claim C4, witnessed: the file `"a\n\nb\n"` loads as `["a", "", "b"]`. -/
theorem claim_C4_all_lines_loaded_witness :
    loadDictionary (joinLines [['a'], [], ['b']]) = [['a'], [], ['b']] :=
  claim_C4_all_lines_loaded [['a'], [], ['b']] (by decide)

/-- Claim C5: for every sequence of input events applied from the initial
state, the Selected Index stays within `[0, max 0 (length - 1)]` of the
ranked list after every cycle (truncated `Nat` subtraction is exactly
`max 0 (length - 1)`). -/
theorem claim_C5_selected_index_in_range (dict : List Str) (evs : List Event) :
    (List.foldl (stepState dict) initState evs).selectedIndex ≤
      (rank (List.foldl (stepState dict) initState evs).query dict).length - 1 := by
  have h := foldl_inv dict evs initState (initState_inv dict)
  rw [rank_length]
  exact h

/-- Claim C6: a quit input (Escape, or Ctrl-C/Ctrl-D/Ctrl-Z) clears the
running flag, the loop then terminates cancelled no matter what events
follow, nothing is written to standard output, and the exit status is
success. -/
theorem claim_C6_quit_cancels (dict : List Str) (st : LoopState)
    (evs : List Event) (code : KeyCode) (ctrl : Bool)
    (hquit : code = KeyCode.esc ∨
      (ctrl = true ∧ (code = KeyCode.char 'c' ∨ code = KeyCode.char 'd' ∨
        code = KeyCode.char 'z')))
    (hrun : st.running = true) :
    (cycle dict st (Event.key code ctrl)).1.running = false ∧
    runLoop dict st (Event.key code ctrl :: evs) = RunOutcome.cancelled ∧
    progOutput (runLoop dict st (Event.key code ctrl :: evs)) = [] ∧
    exitCode (runLoop dict st (Event.key code ctrl :: evs)) = some 0 := by
  have hcycle : cycle dict st (Event.key code ctrl) =
      ({ st with running := false }, StepResult.cont) := by
    rcases hquit with rfl | ⟨rfl, rfl | rfl | rfl⟩ <;> rfl
  have hloop : runLoop dict st (Event.key code ctrl :: evs) =
      RunOutcome.cancelled := by
    rw [runLoop_cons_cont dict st _ _ evs hrun hcycle]
    exact runLoop_not_running dict _ rfl evs
  refine ⟨by rw [hcycle], hloop, ?_, ?_⟩
  · rw [hloop]
    rfl
  · rw [hloop]
    rfl

/-- Claim C6, witnessed at the Escape key from the initial state. -/
theorem claim_C6_quit_cancels_witness :
    runLoop [] initState [Event.key KeyCode.esc false] =
      RunOutcome.cancelled :=
  (claim_C6_quit_cancels [] initState [] KeyCode.esc false (Or.inl rfl)
    rfl).2.1

/-- Claim C7: the distance function satisfies `distance(s, s) = 0`,
`distance("", s) = length s` and `distance(s, "") = length s` for every
string `s`. -/
theorem claim_C7_distance_boundary (s : Str) :
    levenshtein s s = 0 ∧ levenshtein [] s = s.length ∧
      levenshtein s [] = s.length :=
  ⟨levenshtein_self s, levenshtein_nil_left s, levenshtein_nil_right s⟩

/-- Claim C8: the Down navigation increments the Selected Index by one with
ceiling `length - 1`; it is a no-op when the index is already at the
ceiling or the ranked list is empty (in particular, Down at the last
position leaves the whole state unchanged), and Ctrl-N behaves exactly like
the Down arrow. -/
theorem claim_C8_move_down_clamps (filtered : List Str) (st : LoopState) :
    ((handleInput (Event.key KeyCode.down false) filtered st).1.selectedIndex =
      if st.selectedIndex < filtered.length - 1 then st.selectedIndex + 1
      else st.selectedIndex) ∧
    (st.selectedIndex = filtered.length - 1 →
      handleInput (Event.key KeyCode.down false) filtered st =
        (st, StepResult.cont)) ∧
    (filtered = [] →
      handleInput (Event.key KeyCode.down false) filtered st =
        (st, StepResult.cont)) ∧
    handleInput (Event.key (KeyCode.char 'n') true) filtered st =
      handleInput (Event.key KeyCode.down false) filtered st := by
  refine ⟨?_, ?_, ?_, ?_⟩
  · simp only [handleInput]
    split
    · rfl
    · rfl
  · intro h
    simp only [handleInput]
    rw [if_neg (by omega)]
  · intro h
    subst h
    simp only [handleInput]
    rw [if_neg (by simp)]
  · rfl

/-- Claim C8, witnessed: Down is a no-op at the ceiling of a singleton list
and on the empty list. -/
theorem claim_C8_move_down_clamps_witness :
    handleInput (Event.key KeyCode.down false) [['a']] initState =
      (initState, StepResult.cont) ∧
    handleInput (Event.key KeyCode.down false) [] initState =
      (initState, StepResult.cont) :=
  ⟨(claim_C8_move_down_clamps [['a']] initState).2.1 (by decide),
   (claim_C8_move_down_clamps [] initState).2.2.1 rfl⟩

/-- Claim C9: any letter pressed with Control held, other than
Ctrl-C/Ctrl-D/Ctrl-Z/Ctrl-P/Ctrl-N, falls through to the printable-character
arm: the letter is appended to the query (the modifier is ignored) and the
index is clamped, rather than the event being ignored. -/
theorem claim_C9_ctrl_letter_appends (c : Char) (filtered : List Str)
    (st : LoopState) (_halpha : c.isAlpha = true)
    (hne : c ≠ 'c' ∧ c ≠ 'd' ∧ c ≠ 'z' ∧ c ≠ 'p' ∧ c ≠ 'n') :
    handleInput (Event.key (KeyCode.char c) true) filtered st =
      ({ st with query := st.query ++ [c],
                 selectedIndex := min st.selectedIndex (filtered.length - 1) },
       StepResult.cont) := by
  obtain ⟨h1, h2, h3, h4, h5⟩ := hne
  simp only [handleInput]
  rw [if_neg (by simp [h1, h2, h3]), if_neg (by simp [h4]),
      if_neg (by simp [h5])]

/-- Claim C9, witnessed at Ctrl-A from the initial state. -/
theorem claim_C9_ctrl_letter_appends_witness :
    handleInput (Event.key (KeyCode.char 'a') true) [] initState =
      ({ query := ['a'], selectedIndex := 0, running := true },
       StepResult.cont) :=
  claim_C9_ctrl_letter_appends 'a' [] initState (by decide) (by decide)

/-- Claim C10: in every state reachable from the initial state, a non-empty
ranked list implies the Selected Index is strictly below its length, so the
unguarded indexing on the Enter branch is in bounds and no run of the loop
ever reaches the panic outcome. -/
theorem claim_C10_enter_indexing_safe (dict : List Str) (evs : List Event) :
    (rank (List.foldl (stepState dict) initState evs).query dict ≠ [] →
      (List.foldl (stepState dict) initState evs).selectedIndex <
        (rank (List.foldl (stepState dict) initState evs).query dict).length) ∧
    runLoop dict initState evs ≠ RunOutcome.panicked := by
  constructor
  · intro hne
    have h := foldl_inv dict evs initState (initState_inv dict)
    have hlen := rank_length (List.foldl (stepState dict) initState evs).query dict
    have hpos := List.length_pos.mpr hne
    unfold IdxInv at h
    omega
  · exact runLoop_no_panic dict evs initState (initState_inv dict)

/-- Claim C10, witnessed: with dictionary `["a"]` and no events the index
is in bounds and the loop does not panic. -/
theorem claim_C10_enter_indexing_safe_witness :
    ((List.foldl (stepState [['a']]) initState []).selectedIndex <
      (rank (List.foldl (stepState [['a']]) initState []).query [['a']]).length) ∧
    runLoop [['a']] initState [] ≠ RunOutcome.panicked := by
  have h := claim_C10_enter_indexing_safe [['a']] []
  exact ⟨h.1 (by decide), h.2⟩

end Spelf
